import Mathlib

set_option maxHeartbeats 4000000
set_option maxRecDepth 100000

/-!
Verification development for the protobuf field-tag renumberer
(`src/index.ts`).  The program is embedded shallowly over `List Char`:

* `scanStep` / `fmbAux` / `findMatchingBrace` embed `findMatchingBrace`,
  the comment- and string-aware brace scanner (a step function plus a
  fuelled driver loop; the fuel `cs.length + 1` dominates the loop count,
  since every step advances the scan position by 1 or 2).
* `matchFieldAt` / `findMatchFrom` / `renumAux` / `renumberMessageBody`
  embed `renumberMessageBody`, whose field regex
  `(^\s*(?:optional|required|repeated)?\s*(?:map<[^>]+>|[A-Za-z0-9_.<>]+)\s+[A-Za-z_]\w*\s*=\s*)(\d+)(\s*(?:\[[^\]]*\])?\s*;)/gm`
  is hand-compiled into backtracking combinators: greedy quantifiers try
  the longest extent first (`tryDescAux` enumerates split points
  longest-first), alternations try branches in source order, and the
  multiline `^` anchor (`caretOk`) accepts offset 0 or a position right
  after a JavaScript line terminator.  `String.replace` with a global
  regex finds successive leftmost matches, resuming after each match end;
  the replacer keeps group 1 and group 3 verbatim and substitutes the
  running counter (stringified) for the digits group.
* `matchMessageAt` / `findMessageFrom` / `spansAux` / `findMessageSpans`
  embed the `msgRegex` exec loop (`\bmessage\s+([A-Za-z_]\w*)\s*\{`):
  after a recorded span the scan resumes at `match.index + 1`, after a
  skipped (unmatched-brace) occurrence it resumes at the match end, which
  is where `exec` left `lastIndex`.  The matched text contains exactly one
  `{`, its last character, so `lastIndexOf("\x7b")` is the match end minus 1.
* `spliceLoop` / `processProtoTextL` embed `processProtoText`: spans are
  sorted by descending `open` (stable, as JavaScript `sort` is), each body
  `result.slice(open+1, close)` is renumbered and, when changed, spliced
  back.  JavaScript `slice` clamps out-of-range indices, which
  `List.drop`/`List.take` reproduce.
-/

namespace FixProto

/-- JavaScript `\w` character class: `[A-Za-z0-9_]`. -/
def isWordChar (c : Char) : Bool := c.isAlphanum || c = '_'

/-- JavaScript `\d` character class. -/
def isDigitChar (c : Char) : Bool := c.isDigit

/-- JavaScript `\s` character class (ECMAScript WhiteSpace plus line
terminators, including the Unicode space separators and the BOM). -/
def isJsSpace (c : Char) : Bool :=
  c = ' ' || c = '\t' || c = '\n' || c = '\x0b' || c = '\x0c' || c = '\r' ||
  c.val = 0xa0 || c.val = 0x1680 || (0x2000 ≤ c.val && c.val ≤ 0x200a) ||
  c.val = 0x2028 || c.val = 0x2029 || c.val = 0x202f || c.val = 0x205f ||
  c.val = 0x3000 || c.val = 0xfeff

/-- ECMAScript line terminators, the characters after which a multiline
`^` matches. -/
def isLineTerm (c : Char) : Bool :=
  c = '\n' || c = '\r' || c.val = 0x2028 || c.val = 0x2029

/-- The character class `[A-Za-z0-9_.<>]` of the field regex's bare-type
alternative. -/
def isTypeChar (c : Char) : Bool :=
  c.isAlphanum || c = '_' || c = '.' || c = '<' || c = '>'

/-- First character of an identifier: `[A-Za-z_]`. -/
def isIdentStart (c : Char) : Bool := c.isAlpha || c = '_'

/-! Backtracking combinators for the hand-compiled regexes.  A matcher
takes a continuation on the position after the consumed piece; `Option`
failure triggers the enclosing quantifier or alternation to backtrack. -/

/-- Try the continuation at `lo + n`, `lo + n - 1`, …, `lo`, returning the
first success: the longest-first order of a greedy quantifier. -/
def tryDescAux {α : Type} (k : Nat → Option α) (lo : Nat) : Nat → Option α
  | 0 => k lo
  | n+1 =>
    match k (lo + n + 1) with
    | some r => some r
    | none => tryDescAux k lo n

/-- End position of the maximal run of characters satisfying `p` from
`pos` (the fuel `cs.length` dominates the run length). -/
def runEndAux (p : Char → Bool) (cs : List Char) : Nat → Nat → Nat
  | 0, pos => pos
  | fuel+1, pos =>
    match cs.get? pos with
    | some c => if p c then runEndAux p cs fuel (pos+1) else pos
    | none => pos

/-- End position of the maximal run of characters satisfying `p`. -/
def runEnd (p : Char → Bool) (cs : List Char) (pos : Nat) : Nat :=
  runEndAux p cs cs.length pos

/-- Greedy `p*`: try the continuation after the maximal run first, then
backtrack one character at a time. -/
def tryStar {α : Type} (p : Char → Bool) (cs : List Char) (pos : Nat)
    (k : Nat → Option α) : Option α :=
  tryDescAux k pos (runEnd p cs pos - pos)

/-- Greedy `p+`: like `tryStar` but the run must be non-empty. -/
def tryPlus {α : Type} (p : Char → Bool) (cs : List Char) (pos : Nat)
    (k : Nat → Option α) : Option α :=
  if runEnd p cs pos ≤ pos then none
  else tryDescAux k (pos+1) (runEnd p cs pos - pos - 1)

/-- Match a single literal character. -/
def tryChar {α : Type} (c : Char) (cs : List Char) (pos : Nat)
    (k : Nat → Option α) : Option α :=
  match cs.get? pos with
  | some c2 => if c2 = c then k (pos+1) else none
  | none => none

/-- Match a literal string. -/
def tryLit {α : Type} (s : List Char) (cs : List Char) (pos : Nat)
    (k : Nat → Option α) : Option α :=
  if (cs.drop pos).take s.length = s then k (pos + s.length) else none

/-- The optional label `(?:optional|required|repeated)?`: alternatives in
source order, then the empty match, as a greedy `?` does. -/
def fieldLabel {α : Type} (cs : List Char) (pos : Nat)
    (k : Nat → Option α) : Option α :=
  match tryLit "optional".data cs pos k with
  | some r => some r
  | none =>
    match tryLit "required".data cs pos k with
    | some r => some r
    | none =>
      match tryLit "repeated".data cs pos k with
      | some r => some r
      | none => k pos

/-- The type alternative `(?:map<[^>]+>|[A-Za-z0-9_.<>]+)`. -/
def fieldType {α : Type} (cs : List Char) (pos : Nat)
    (k : Nat → Option α) : Option α :=
  match tryLit "map<".data cs pos (fun p2 =>
      tryPlus (fun c => !(c = '>')) cs p2 (fun p3 => tryChar '>' cs p3 k)) with
  | some r => some r
  | none => tryPlus isTypeChar cs pos k

/-- The field name `[A-Za-z_]\w*`. -/
def fieldName {α : Type} (cs : List Char) (pos : Nat)
    (k : Nat → Option α) : Option α :=
  match cs.get? pos with
  | some c => if isIdentStart c then tryStar isWordChar cs (pos+1) k else none
  | none => none

/-- Group 3 of the field regex, `(\s*(?:\[[^\]]*\])?\s*;)`: the optional
bracket group is tried present-first. -/
def grp3 {α : Type} (cs : List Char) (pos : Nat)
    (k : Nat → Option α) : Option α :=
  tryStar isJsSpace cs pos (fun a =>
    match tryChar '[' cs a (fun b =>
        tryStar (fun c => !(c = ']')) cs b (fun c2 =>
          tryChar ']' cs c2 (fun d =>
            tryStar isJsSpace cs d (fun e => tryChar ';' cs e k)))) with
    | some r => some r
    | none => tryStar isJsSpace cs a (fun e => tryChar ';' cs e k))

/-- Multiline `^`: start of the buffer or right after a line terminator. -/
def caretOk (cs : List Char) (q : Nat) : Bool :=
  q == 0 ||
    (match cs.get? (q - 1) with
     | some c => isLineTerm c
     | none => false)

/-- Attempt the field regex at position `q`.  On success returns
`(a, b, e)`: group 1 is `[q, a)`, the digits group is `[a, b)` and
group 3 is `[b, e)`, with `e` the match end. -/
def matchFieldAt (cs : List Char) (q : Nat) : Option (Nat × Nat × Nat) :=
  if caretOk cs q then
    tryStar isJsSpace cs q (fun j1 =>
      fieldLabel cs j1 (fun j2 =>
        tryStar isJsSpace cs j2 (fun j3 =>
          fieldType cs j3 (fun j4 =>
            tryPlus isJsSpace cs j4 (fun j5 =>
              fieldName cs j5 (fun j6 =>
                tryStar isJsSpace cs j6 (fun j7 =>
                  tryChar '=' cs j7 (fun j8 =>
                    tryStar isJsSpace cs j8 (fun a =>
                      tryPlus isDigitChar cs a (fun b =>
                        grp3 cs b (fun e => some (a, b, e))))))))))))
  else none

/-- Leftmost field-regex match at a position `≥ q`, as the scan of a
global `replace` does.  Returns `(q, a, b, e)` per `matchFieldAt`. -/
def findMatchFrom (cs : List Char) : Nat → Nat → Option (Nat × Nat × Nat × Nat)
  | 0, _ => none
  | fuel+1, q =>
    if cs.length < q then none
    else
      match matchFieldAt cs q with
      | some (a, b, e) => some (q, a, b, e)
      | none => findMatchFrom cs fuel (q+1)

/-- JavaScript `slice` on a character list: `text.slice(a, b)` with the
clamping behaviour of out-of-range indices. -/
def slice (cs : List Char) (a b : Nat) : List Char := (cs.drop a).take (b - a)

/-- The replacement loop of `renumberMessageBody`: successive matches are
replaced by group 1, the stringified counter and group 3; the counter
increments once per match.  Returns the rewritten suffix from `pos` and
the list of counter values used. -/
def renumAux (cs : List Char) : Nat → Nat → Nat → List Char × List Nat
  | 0, pos, _ => (cs.drop pos, [])
  | fuel+1, pos, counter =>
    match findMatchFrom cs (cs.length + 2) pos with
    | none => (cs.drop pos, [])
    | some (q, a, b, e) =>
      let rest := renumAux cs fuel e (counter + 1)
      (slice cs pos q ++ slice cs q a ++ (Nat.repr counter).data ++
         slice cs b e ++ rest.1,
       counter :: rest.2)

/-- Embedding of `renumberMessageBody`. -/
def renumberMessageBody (cs : List Char) : List Char :=
  (renumAux cs (cs.length + 2) 0 1).1

/-- The tag numbers `renumberMessageBody` assigns, in match order. -/
def renumTags (cs : List Char) : List Nat :=
  (renumAux cs (cs.length + 2) 0 1).2

/-- The successive field-regex matches of a body, as the replacement loop
visits them. -/
def matchesFrom (cs : List Char) : Nat → Nat → List (Nat × Nat × Nat × Nat)
  | 0, _ => []
  | fuel+1, pos =>
    match findMatchFrom cs (cs.length + 2) pos with
    | none => []
    | some (q, a, b, e) => (q, a, b, e) :: matchesFrom cs fuel e

/-- All field-regex matches of a body. -/
def fieldMatches (cs : List Char) : List (Nat × Nat × Nat × Nat) :=
  matchesFrom cs (cs.length + 2) 0

/-- Reassemble the original suffix of a body from its match list: the gap
before each match, then group 1, the original digits and group 3. -/
def concatIn (cs : List Char) : Nat → List (Nat × Nat × Nat × Nat) → List Char
  | pos, [] => cs.drop pos
  | pos, (q, a, b, e) :: ms =>
    slice cs pos q ++ slice cs q a ++ slice cs a b ++ slice cs b e ++
      concatIn cs e ms

/-- Reassemble the rewritten suffix of a body from its match list: like
`concatIn` but with the running counter in place of the digits. -/
def concatOut (cs : List Char) : Nat → Nat → List (Nat × Nat × Nat × Nat) → List Char
  | _, pos, [] => cs.drop pos
  | counter, pos, (q, a, b, e) :: ms =>
    slice cs pos q ++ slice cs q a ++ (Nat.repr counter).data ++
      slice cs b e ++ concatOut cs (counter+1) e ms

/-! The brace scanner. -/

/-- Scanner state of `findMatchingBrace`: position, brace depth and the
four mode flags of the source (`inSingleLineComment`, `inMultiLineComment`,
`inDoubleQuote`, `inSingleQuote`). -/
structure ScanSt where
  i : Nat
  depth : Int
  slc : Bool
  mlc : Bool
  dq : Bool
  sq : Bool
deriving DecidableEq, Repr

/-- Outcome of one loop iteration: return the matching position, or
continue with a new state. -/
inductive StepRes where
  | found : Nat → StepRes
  | cont : ScanSt → StepRes
deriving DecidableEq, Repr

/-- One iteration of the `findMatchingBrace` loop body on the character
`ch` at `st.i`, with `next` the character at `st.i + 1` when present (the
source reads `""`, which is falsy and equal to no character). -/
def scanStep (st : ScanSt) (ch : Char) (next : Option Char) : StepRes :=
  if st.slc = false ∧ st.mlc = false ∧ st.dq = false ∧ st.sq = false then
    if ch = '/' ∧ next = some '/' then .cont { st with slc := true, i := st.i + 2 }
    else if ch = '/' ∧ next = some '*' then .cont { st with mlc := true, i := st.i + 2 }
    else if ch = '"' then .cont { st with dq := true, i := st.i + 1 }
    else if ch = '\'' then .cont { st with sq := true, i := st.i + 1 }
    else if ch = '{' then .cont { st with depth := st.depth + 1, i := st.i + 1 }
    else if ch = '}' then
      if st.depth - 1 = 0 then .found st.i
      else .cont { st with depth := st.depth - 1, i := st.i + 1 }
    else .cont { st with i := st.i + 1 }
  else if st.slc then
    if ch = '\n' then .cont { st with slc := false, i := st.i + 1 }
    else .cont { st with i := st.i + 1 }
  else if st.mlc then
    if ch = '*' ∧ next = some '/' then .cont { st with mlc := false, i := st.i + 2 }
    else .cont { st with i := st.i + 1 }
  else if st.dq then
    if ch = '\\' ∧ next.isSome then .cont { st with i := st.i + 2 }
    else if ch = '"' then .cont { st with dq := false, i := st.i + 1 }
    else .cont { st with i := st.i + 1 }
  else
    if ch = '\\' ∧ next.isSome then .cont { st with i := st.i + 2 }
    else if ch = '\'' then .cont { st with sq := false, i := st.i + 1 }
    else .cont { st with i := st.i + 1 }

/-- Initial scanner state at `openPos`: depth 0, all modes off. -/
def initSt (p : Nat) : ScanSt := ⟨p, 0, false, false, false, false⟩

/-- The driver loop of `findMatchingBrace`: step while `i < len`. -/
def fmbAux (cs : List Char) : Nat → ScanSt → Option Nat
  | 0, _ => none
  | fuel+1, st =>
    if h : st.i < cs.length then
      match scanStep st (cs.get ⟨st.i, h⟩) (cs.get? (st.i + 1)) with
      | .found p => some p
      | .cont st2 => fmbAux cs fuel st2
    else none

/-- Embedding of `findMatchingBrace`; `none` is the source's `-1`. -/
def findMatchingBrace (cs : List Char) (openPos : Nat) : Option Nat :=
  fmbAux cs (cs.length + 1) (initSt openPos)

/-! The message-span finder. -/

/-- Attempt `\bmessage\s+([A-Za-z_]\w*)\s*\{` at position `p`; returns the
match end (one past the `{`).  The word boundary before the literal
`message` reduces to "previous character is not a word character", since
the first matched character is one. -/
def matchMessageAt (cs : List Char) (p : Nat) : Option Nat :=
  if p == 0 || !((cs.get? (p - 1)).elim false isWordChar) then
    tryLit "message".data cs p (fun j1 =>
      tryPlus isJsSpace cs j1 (fun j2 =>
        match cs.get? j2 with
        | some c =>
          if isIdentStart c then
            tryStar isWordChar cs (j2+1) (fun j3 =>
              tryStar isJsSpace cs j3 (fun j4 =>
                tryChar '{' cs j4 (fun j5 => some j5)))
          else none
        | none => none))
  else none

/-- Leftmost `msgRegex` match at a position `≥ p`, as `exec` searches from
`lastIndex`; returns the match index and end. -/
def findMessageFrom (cs : List Char) : Nat → Nat → Option (Nat × Nat)
  | 0, _ => none
  | fuel+1, p =>
    if cs.length < p then none
    else
      match matchMessageAt cs p with
      | some e => some (p, e)
      | none => findMessageFrom cs fuel (p+1)

/-- The `exec` loop of `processProtoText`: record a span when the brace
matcher succeeds and resume at `match.index + 1`; on failure skip the
occurrence and resume at the match end, where `exec` left `lastIndex`. -/
def spansAux (cs : List Char) : Nat → Nat → List (Nat × Nat)
  | 0, _ => []
  | fuel+1, q =>
    match findMessageFrom cs (cs.length + 2) q with
    | none => []
    | some (m, e) =>
      match findMatchingBrace cs (e - 1) with
      | none => spansAux cs fuel e
      | some c => (e - 1, c) :: spansAux cs fuel (m + 1)

/-- All recorded `(open, close)` spans of a document. -/
def findMessageSpans (cs : List Char) : List (Nat × Nat) :=
  spansAux cs (cs.length + 2) 0

/-- Stable sort by descending `open`, the comparator
`(a, b) => b.open - a.open` under JavaScript's stable `sort`. -/
def sortSpans (l : List (Nat × Nat)) : List (Nat × Nat) :=
  List.insertionSort (fun a b => b.1 ≤ a.1) l

/-- The rewrite loop of `processProtoText`: slice each body out of the
current buffer, renumber it, and splice it back when it changed. -/
def spliceLoop : List (Nat × Nat) → List Char → Bool → List Char × Bool
  | [], res, changed => (res, changed)
  | (o, c) :: rest, res, changed =>
    let bodyStart := o + 1
    let body := slice res bodyStart c
    let newBody := renumberMessageBody body
    if newBody = body then spliceLoop rest res changed
    else spliceLoop rest (res.take bodyStart ++ newBody ++ res.drop c) true

/-- Embedding of `processProtoText` on character lists. -/
def processProtoTextL (cs : List Char) : List Char × Bool :=
  spliceLoop (sortSpans (findMessageSpans cs)) cs false

/-- Embedding of `processProtoText` on strings. -/
def processProtoText (s : String) : String × Bool :=
  let r := processProtoTextL s.data
  (String.mk r.1, r.2)

/-! Position bookkeeping for the combinators: every successful matcher
hands its continuation a position at or beyond its start, and a matched
literal character pins the position inside the buffer. -/

theorem tryDescAux_some {α : Type} {k : Nat → Option α} {lo n : Nat} {r : α}
    (h : tryDescAux k lo n = some r) : ∃ j, lo ≤ j ∧ j ≤ lo + n ∧ k j = some r := by
  induction n with
  | zero => exact ⟨lo, le_refl _, by omega, h⟩
  | succ n ih =>
    simp only [tryDescAux] at h
    split at h
    · next r2 heq =>
      cases h
      exact ⟨lo + n + 1, by omega, by omega, heq⟩
    · next heq =>
      obtain ⟨j, hj1, hj2, hj3⟩ := ih h
      exact ⟨j, hj1, by omega, hj3⟩

theorem tryStar_some {α : Type} {p : Char → Bool} {cs : List Char} {pos : Nat}
    {k : Nat → Option α} {r : α} (h : tryStar p cs pos k = some r) :
    ∃ j, pos ≤ j ∧ k j = some r := by
  obtain ⟨j, hj1, _, hj3⟩ := tryDescAux_some h
  exact ⟨j, hj1, hj3⟩

theorem tryPlus_some {α : Type} {p : Char → Bool} {cs : List Char} {pos : Nat}
    {k : Nat → Option α} {r : α} (h : tryPlus p cs pos k = some r) :
    ∃ j, pos + 1 ≤ j ∧ k j = some r := by
  unfold tryPlus at h
  split at h
  · cases h
  · obtain ⟨j, hj1, _, hj3⟩ := tryDescAux_some h
    exact ⟨j, hj1, hj3⟩

theorem tryChar_some {α : Type} {c : Char} {cs : List Char} {pos : Nat}
    {k : Nat → Option α} {r : α} (h : tryChar c cs pos k = some r) :
    cs.get? pos = some c ∧ k (pos + 1) = some r := by
  unfold tryChar at h
  split at h
  · next c2 heq =>
    split at h
    · next he => exact ⟨by rw [heq, he], h⟩
    · cases h
  · cases h

theorem tryLit_some {α : Type} {s cs : List Char} {pos : Nat}
    {k : Nat → Option α} {r : α} (h : tryLit s cs pos k = some r) :
    (cs.drop pos).take s.length = s ∧ k (pos + s.length) = some r := by
  unfold tryLit at h
  split at h
  · next he => exact ⟨he, h⟩
  · cases h

theorem fieldLabel_some {α : Type} {cs : List Char} {pos : Nat}
    {k : Nat → Option α} {r : α} (h : fieldLabel cs pos k = some r) :
    ∃ j, pos ≤ j ∧ k j = some r := by
  unfold fieldLabel at h
  split at h
  · next heq => cases h; exact ⟨_, by omega, (tryLit_some heq).2⟩
  · split at h
    · next heq => cases h; exact ⟨_, by omega, (tryLit_some heq).2⟩
    · split at h
      · next heq => cases h; exact ⟨_, by omega, (tryLit_some heq).2⟩
      · exact ⟨pos, le_refl _, h⟩

theorem fieldType_some {α : Type} {cs : List Char} {pos : Nat}
    {k : Nat → Option α} {r : α} (h : fieldType cs pos k = some r) :
    ∃ j, pos ≤ j ∧ k j = some r := by
  unfold fieldType at h
  split at h
  · next heq =>
    cases h
    obtain ⟨_, h2⟩ := tryLit_some heq
    obtain ⟨p3, hp3, h3⟩ := tryPlus_some h2
    obtain ⟨_, h4⟩ := tryChar_some h3
    exact ⟨p3 + 1, by omega, h4⟩
  · obtain ⟨j, hj1, hj3⟩ := tryPlus_some h
    exact ⟨j, by omega, hj3⟩

theorem fieldName_some {α : Type} {cs : List Char} {pos : Nat}
    {k : Nat → Option α} {r : α} (h : fieldName cs pos k = some r) :
    ∃ j, pos + 1 ≤ j ∧ k j = some r := by
  unfold fieldName at h
  split at h
  · split at h
    · obtain ⟨j, hj1, hj3⟩ := tryStar_some h
      exact ⟨j, hj1, hj3⟩
    · cases h
  · cases h

theorem get?_some_lt {cs : List Char} {n : Nat} {c : Char}
    (h : cs.get? n = some c) : n < cs.length := by
  by_contra hn
  rw [List.get?_eq_none.mpr (by omega)] at h
  cases h

theorem grp3_some {α : Type} {cs : List Char} {pos : Nat}
    {k : Nat → Option α} {r : α} (h : grp3 cs pos k = some r) :
    ∃ j, pos + 1 ≤ j ∧ j ≤ cs.length ∧ k j = some r := by
  unfold grp3 at h
  obtain ⟨a, ha, h2⟩ := tryStar_some h
  split at h2
  · next heq =>
    cases h2
    obtain ⟨_, h3⟩ := tryChar_some heq
    obtain ⟨c2, hc2, h4⟩ := tryStar_some h3
    obtain ⟨_, h5⟩ := tryChar_some h4
    obtain ⟨e2, he2, h6⟩ := tryStar_some h5
    obtain ⟨hsemi, h7⟩ := tryChar_some h6
    exact ⟨e2 + 1, by omega, by have := get?_some_lt hsemi; omega, h7⟩
  · obtain ⟨e2, he2, h3⟩ := tryStar_some h2
    obtain ⟨hsemi, h4⟩ := tryChar_some h3
    exact ⟨e2 + 1, by omega, by have := get?_some_lt hsemi; omega, h4⟩

theorem matchFieldAt_some {cs : List Char} {q a b e : Nat}
    (h : matchFieldAt cs q = some (a, b, e)) :
    q ≤ a ∧ a < b ∧ b < e ∧ e ≤ cs.length ∧ caretOk cs q = true := by
  unfold matchFieldAt at h
  split at h
  · next hcaret =>
    obtain ⟨j1, hj1, h1⟩ := tryStar_some h
    obtain ⟨j2, hj2, h2⟩ := fieldLabel_some h1
    obtain ⟨j3, hj3, h3⟩ := tryStar_some h2
    obtain ⟨j4, hj4, h4⟩ := fieldType_some h3
    obtain ⟨j5, hj5, h5⟩ := tryPlus_some h4
    obtain ⟨j6, hj6, h6⟩ := fieldName_some h5
    obtain ⟨j7, hj7, h7⟩ := tryStar_some h6
    obtain ⟨_, h8⟩ := tryChar_some h7
    obtain ⟨a2, ha2, h9⟩ := tryStar_some h8
    obtain ⟨b2, hb2, h10⟩ := tryPlus_some h9
    obtain ⟨e2, he2, hlen, h11⟩ := grp3_some h10
    cases h11
    exact ⟨by omega, by omega, by omega, hlen, hcaret⟩
  · cases h

theorem findMatchFrom_some {cs : List Char} :
    ∀ {fuel q0 q a b e : Nat},
      findMatchFrom cs fuel q0 = some (q, a, b, e) →
      q0 ≤ q ∧ matchFieldAt cs q = some (a, b, e) := by
  intro fuel
  induction fuel with
  | zero => intro q0 q a b e h; cases h
  | succ n ih =>
    intro q0 q a b e h
    rw [findMatchFrom] at h
    split at h
    · cases h
    · split at h
      · next a2 b2 e2 heq =>
        cases h
        exact ⟨le_refl _, heq⟩
      · obtain ⟨h1, h2⟩ := ih h
        exact ⟨by omega, h2⟩

theorem matchMessageAt_some {cs : List Char} {p e : Nat}
    (h : matchMessageAt cs p = some e) : p < e ∧ e ≤ cs.length := by
  unfold matchMessageAt at h
  split at h
  · obtain ⟨_, h1⟩ := tryLit_some h
    obtain ⟨j2, hj2, h2⟩ := tryPlus_some h1
    split at h2
    · split at h2
      · obtain ⟨j3, hj3, h3⟩ := tryStar_some h2
        obtain ⟨j4, hj4, h4⟩ := tryStar_some h3
        obtain ⟨hbrace, h5⟩ := tryChar_some h4
        cases h5
        exact ⟨by simp at hj2; omega, by have := get?_some_lt hbrace; omega⟩
      · cases h2
    · cases h2
  · cases h

theorem findMessageFrom_some {cs : List Char} :
    ∀ {fuel q0 m e : Nat},
      findMessageFrom cs fuel q0 = some (m, e) →
      q0 ≤ m ∧ m < e ∧ e ≤ cs.length := by
  intro fuel
  induction fuel with
  | zero => intro q0 m e h; cases h
  | succ n ih =>
    intro q0 m e h
    rw [findMessageFrom] at h
    split at h
    · cases h
    · split at h
      · next e2 heq =>
        cases h
        obtain ⟨h1, h2⟩ := matchMessageAt_some heq
        exact ⟨le_refl _, h1, h2⟩
      · obtain ⟨h1, h2⟩ := ih h
        exact ⟨by omega, h2⟩

/-! Scanner step lemmas. -/

theorem scanStep_cont_i {st : ScanSt} {ch : Char} {next : Option Char} {st2 : ScanSt}
    (h : scanStep st ch next = .cont st2) : st2.i = st.i + 1 ∨ st2.i = st.i + 2 := by
  unfold scanStep at h
  repeat' split at h
  all_goals cases h
  all_goals simp

theorem scanStep_found {st : ScanSt} {ch : Char} {next : Option Char} {p : Nat}
    (h : scanStep st ch next = .found p) :
    p = st.i ∧ st.slc = false ∧ st.mlc = false ∧ st.dq = false ∧ st.sq = false ∧
      st.depth = 1 ∧ ch = '}' := by
  unfold scanStep at h
  repeat' split at h
  all_goals cases h
  all_goals refine ⟨rfl, ?_, ?_, ?_, ?_, by omega, by simp_all⟩
  all_goals simp_all

/-- One `cont` iteration of the scanner loop at a position inside the
buffer. -/
def contStep (cs : List Char) (st st2 : ScanSt) : Prop :=
  ∃ h : st.i < cs.length,
    scanStep st (cs.get ⟨st.i, h⟩) (cs.get? (st.i + 1)) = .cont st2

theorem contStep_i {cs : List Char} {st st2 : ScanSt} (h : contStep cs st st2) :
    st.i < st2.i := by
  obtain ⟨hlt, hstep⟩ := h
  rcases scanStep_cont_i hstep with h1 | h1 <;> omega

theorem reach_i_le {cs : List Char} {st st2 : ScanSt}
    (h : Relation.ReflTransGen (contStep cs) st st2) : st.i ≤ st2.i := by
  induction h with
  | refl => exact le_refl _
  | tail hpre hstep ih => exact le_trans ih (le_of_lt (contStep_i hstep))

theorem fmbAux_some {cs : List Char} :
    ∀ {fuel : Nat} {st : ScanSt} {c : Nat}, fmbAux cs fuel st = some c →
    ∃ st2, Relation.ReflTransGen (contStep cs) st st2 ∧
      (∃ h : st2.i < cs.length,
        scanStep st2 (cs.get ⟨st2.i, h⟩) (cs.get? (st2.i + 1)) = .found c) ∧
      st.i ≤ st2.i := by
  intro fuel
  induction fuel with
  | zero => intro st c h; cases h
  | succ n ih =>
    intro st c h
    rw [fmbAux] at h
    split at h
    · next hlt =>
      split at h
      · next p hstep =>
        cases h
        exact ⟨st, .refl, ⟨hlt, hstep⟩, le_refl _⟩
      · next st2 hstep =>
        obtain ⟨st3, hreach, hfound, hle⟩ := ih h
        have hcs : contStep cs st st2 := ⟨hlt, hstep⟩
        exact ⟨st3, .head hcs hreach, hfound, by have := contStep_i hcs; omega⟩
    · cases h

/-! Fuel stability: every loop's fuel parameter only needs to dominate the
number of remaining iterations, so the results are independent of the fuel
once it is large enough — the loops terminate on every input. -/

theorem fmbAux_fuel {cs : List Char} :
    ∀ (f1 : Nat) (f2 : Nat) (st : ScanSt), cs.length - st.i < f1 →
      cs.length - st.i < f2 → fmbAux cs f1 st = fmbAux cs f2 st := by
  intro f1
  induction f1 with
  | zero => intro f2 st h1 h2; omega
  | succ n ih =>
    intro f2 st h1 h2
    cases f2 with
    | zero => omega
    | succ m =>
      rw [fmbAux, fmbAux]
      by_cases hlt : st.i < cs.length
      · rw [dif_pos hlt, dif_pos hlt]
        cases hstep : scanStep st (cs.get ⟨st.i, hlt⟩) (cs.get? (st.i + 1)) with
        | found p => rfl
        | cont st2 =>
          have hi : st.i < st2.i := contStep_i ⟨hlt, hstep⟩
          exact ih m st2 (by omega) (by omega)
      · rw [dif_neg hlt, dif_neg hlt]

theorem spansAux_fuel {cs : List Char} :
    ∀ (f1 : Nat) (f2 : Nat) (q : Nat), cs.length + 1 - q < f1 →
      cs.length + 1 - q < f2 → spansAux cs f1 q = spansAux cs f2 q := by
  intro f1
  induction f1 with
  | zero => intro f2 q h1 h2; omega
  | succ n ih =>
    intro f2 q h1 h2
    cases f2 with
    | zero => omega
    | succ m =>
      rw [spansAux, spansAux]
      split
      · rfl
      · next mm e heq =>
        obtain ⟨hq, hme, hel⟩ := findMessageFrom_some heq
        split
        · exact ih m e (by omega) (by omega)
        · rw [ih m (mm + 1) (by omega) (by omega)]

theorem renumAux_fuel {cs : List Char} :
    ∀ (f1 : Nat) (f2 : Nat) (pos counter : Nat), cs.length + 1 - pos < f1 →
      cs.length + 1 - pos < f2 →
      renumAux cs f1 pos counter = renumAux cs f2 pos counter := by
  intro f1
  induction f1 with
  | zero => intro f2 pos counter h1 h2; omega
  | succ n ih =>
    intro f2 pos counter h1 h2
    cases f2 with
    | zero => omega
    | succ m =>
      rw [renumAux, renumAux]
      split
      · rfl
      · next q a b e heq =>
        obtain ⟨hq, hmf⟩ := findMatchFrom_some heq
        obtain ⟨h1', h2', h3', h4', _⟩ := matchFieldAt_some hmf
        rw [ih m e (counter + 1) (by omega) (by omega)]

theorem matchesFrom_fuel {cs : List Char} :
    ∀ (f1 : Nat) (f2 : Nat) (pos : Nat), cs.length + 1 - pos < f1 →
      cs.length + 1 - pos < f2 → matchesFrom cs f1 pos = matchesFrom cs f2 pos := by
  intro f1
  induction f1 with
  | zero => intro f2 pos h1 h2; omega
  | succ n ih =>
    intro f2 pos h1 h2
    cases f2 with
    | zero => omega
    | succ m =>
      rw [matchesFrom, matchesFrom]
      split
      · rfl
      · next q a b e heq =>
        obtain ⟨hq, hmf⟩ := findMatchFrom_some heq
        obtain ⟨h1', h2', h3', h4', _⟩ := matchFieldAt_some hmf
        rw [ih m e (by omega) (by omega)]

/-- Every span the exec loop records carries a successful brace match: an
occurrence whose brace match fails is skipped and contributes nothing. -/
theorem spansAux_mem {cs : List Char} :
    ∀ {fuel q : Nat} {s : Nat × Nat}, s ∈ spansAux cs fuel q →
      findMatchingBrace cs s.1 = some s.2 := by
  intro fuel
  induction fuel with
  | zero => intro q s h; cases h
  | succ n ih =>
    intro q s h
    rw [spansAux] at h
    split at h
    · cases h
    · next me heq =>
      split at h
      · exact ih h
      · next c hbrace =>
        rcases List.mem_cons.mp h with h | h
        · subst h; exact hbrace
        · exact ih h

/-! Slice algebra and the segment decomposition of the replacement loop. -/

theorem slice_append_slice (cs : List Char) {p a b : Nat} (h1 : p ≤ a) (h2 : a ≤ b) :
    slice cs p a ++ slice cs a b = slice cs p b := by
  unfold slice
  have hd : cs.drop a = (cs.drop p).drop (a - p) := by
    rw [List.drop_drop]
    congr 1
    omega
  rw [hd, ← List.take_add]
  congr 1
  omega

theorem slice_append_drop (cs : List Char) {p e : Nat} (h : p ≤ e) :
    slice cs p e ++ cs.drop e = cs.drop p := by
  unfold slice
  have hd : cs.drop e = (cs.drop p).drop (e - p) := by
    rw [List.drop_drop]
    congr 1
    omega
  rw [hd]
  exact List.take_append_drop _ _

theorem concatIn_matchesFrom (cs : List Char) :
    ∀ (fuel pos : Nat), concatIn cs pos (matchesFrom cs fuel pos) = cs.drop pos := by
  intro fuel
  induction fuel with
  | zero => intro pos; rfl
  | succ n ih =>
    intro pos
    rw [matchesFrom]
    split
    · rfl
    · next q a b e heq =>
      obtain ⟨hq, hmf⟩ := findMatchFrom_some heq
      obtain ⟨h1, h2, h3, _, _⟩ := matchFieldAt_some hmf
      have e1 : slice cs b e ++ cs.drop e = cs.drop b := slice_append_drop cs (by omega)
      have e2 : slice cs a b ++ cs.drop b = cs.drop a := slice_append_drop cs (by omega)
      have e3 : slice cs q a ++ cs.drop a = cs.drop q := slice_append_drop cs (by omega)
      have e4 : slice cs pos q ++ cs.drop q = cs.drop pos := slice_append_drop cs (by omega)
      rw [concatIn, ih e]
      simp only [List.append_assoc]
      rw [e1, e2, e3, e4]

theorem renumAux_fst_eq_concatOut {cs : List Char} :
    ∀ (fuel pos counter : Nat),
      (renumAux cs fuel pos counter).1 =
        concatOut cs counter pos (matchesFrom cs fuel pos) := by
  intro fuel
  induction fuel with
  | zero => intro pos counter; rfl
  | succ n ih =>
    intro pos counter
    rw [renumAux, matchesFrom]
    split
    · rfl
    · next q a b e heq =>
      rw [concatOut]
      simp only
      rw [ih e (counter + 1)]

theorem renumAux_tags (cs : List Char) :
    ∀ (fuel pos counter : Nat),
      (renumAux cs fuel pos counter).2 =
        List.range' counter (renumAux cs fuel pos counter).2.length := by
  intro fuel
  induction fuel with
  | zero => intro pos counter; rfl
  | succ n ih =>
    intro pos counter
    rw [renumAux]
    split
    · rfl
    · next q a b e heq =>
      simp only [List.length_cons, List.range'_succ]
      rw [← ih e (counter + 1)]

theorem renumAux_tags_length (cs : List Char) :
    ∀ (fuel pos counter : Nat),
      (renumAux cs fuel pos counter).2.length = (matchesFrom cs fuel pos).length := by
  intro fuel
  induction fuel with
  | zero => intro pos counter; rfl
  | succ n ih =>
    intro pos counter
    rw [renumAux, matchesFrom]
    split
    · rfl
    · next q a b e heq =>
      simp only [List.length_cons]
      rw [ih e (counter + 1)]

/-! Failure lemmas: a line whose content after blank or tab indentation
starts with `//` offers the field regex no foothold, since `/` is neither
a label head, a `map<` head nor a type character. -/

theorem tryDescAux_none {α : Type} {k : Nat → Option α} {lo n : Nat}
    (h : ∀ j, lo ≤ j → j ≤ lo + n → k j = none) : tryDescAux k lo n = none := by
  induction n with
  | zero => exact h lo (le_refl _) (by omega)
  | succ n ih =>
    simp only [tryDescAux]
    rw [h (lo + n + 1) (by omega) (by omega)]
    exact ih fun j h1 h2 => h j h1 (by omega)

theorem head_of_take_eq {cs : List Char} {pos n : Nat} {c0 : Char} {s' : List Char}
    (heq : (cs.drop pos).take n = c0 :: s') : cs.get? pos = some c0 := by
  cases n with
  | zero => cases heq
  | succ n =>
    cases hd : cs.drop pos with
    | nil => rw [hd] at heq; cases heq
    | cons a t =>
      rw [hd] at heq
      injection heq with ha _
      subst ha
      have h0 : (cs.drop pos).get? 0 = some a := by rw [hd]; rfl
      rw [List.get?_drop] at h0
      simpa using h0

theorem tryLit_none {α : Type} {s cs : List Char} {pos : Nat} {k : Nat → Option α}
    {c : Char} (c0 : Char) (s' : List Char) (hs : s = c0 :: s')
    (hc : cs.get? pos = some c) (hne : c ≠ c0) : tryLit s cs pos k = none := by
  unfold tryLit
  rw [if_neg]
  intro heq
  rw [hs] at heq
  have h2 := (hc.symm.trans (head_of_take_eq heq))
  injection h2 with h2
  exact hne h2

theorem fieldLabel_skip {α : Type} {cs : List Char} {pos : Nat} {k : Nat → Option α}
    {c : Char} (hc : cs.get? pos = some c) (ho : c ≠ 'o') (hr : c ≠ 'r') :
    fieldLabel cs pos k = k pos := by
  unfold fieldLabel
  rw [tryLit_none 'o' "ptional".data rfl hc ho,
    tryLit_none 'r' "equired".data rfl hc hr,
    tryLit_none 'r' "epeated".data rfl hc hr]

theorem runEnd_stop {p : Char → Bool} {cs : List Char} {pos : Nat} {c : Char}
    (hc : cs.get? pos = some c) (hp : p c = false) : runEnd p cs pos = pos := by
  unfold runEnd
  have hlt := get?_some_lt hc
  cases hl : cs.length with
  | zero => omega
  | succ m =>
    simp only [runEndAux, hc, hp]
    simp

theorem fieldType_none {α : Type} {cs : List Char} {pos : Nat} {k : Nat → Option α}
    {c : Char} (hc : cs.get? pos = some c) (ht : isTypeChar c = false)
    (hm : c ≠ 'm') : fieldType cs pos k = none := by
  unfold fieldType
  rw [tryLit_none 'm' "ap<".data rfl hc hm]
  show tryPlus isTypeChar cs pos k = none
  unfold tryPlus
  rw [runEnd_stop hc ht]
  simp

theorem runEndAux_reach {cs : List Char} {R : Nat} (h1 : cs.get? R = some '/') :
    ∀ (fuel j : Nat), j ≤ R → R - j ≤ fuel →
      (∀ i, j ≤ i → i < R → (cs.get? i).elim false isJsSpace = true) →
      runEndAux isJsSpace cs fuel j = R := by
  intro fuel
  induction fuel with
  | zero =>
    intro j hj hf _
    have : j = R := by omega
    subst this
    rfl
  | succ n ih =>
    intro j hj hf hsp
    by_cases hjR : j = R
    · subst hjR
      simp only [runEndAux, h1]
      rw [show isJsSpace '/' = false by decide]
      simp
    · have hs := hsp j (le_refl _) (by omega)
      cases hcj : cs.get? j with
      | none => rw [hcj] at hs; cases hs
      | some c =>
        rw [hcj] at hs
        simp only [Option.elim] at hs
        simp only [runEndAux, hcj, hs]
        simp only [if_true]
        exact ih (j+1) (by omega) (by omega) fun i hi1 hi2 => hsp i (by omega) hi2

theorem runEnd_reach {cs : List Char} {R j : Nat} (h1 : cs.get? R = some '/')
    (hj : j ≤ R)
    (hsp : ∀ i, j ≤ i → i < R → (cs.get? i).elim false isJsSpace = true) :
    runEnd isJsSpace cs j = R := by
  have hlt := get?_some_lt h1
  exact runEndAux_reach h1 cs.length j hj (by omega) hsp

/-- At a line whose content after blank or tab indentation begins with
`//`, the field regex cannot match: every backtracking candidate position
for the leading quantifiers carries a blank, a tab or the slash, and none
of these can start a label, a `map<` literal or a bare type. -/
theorem matchFieldAt_none_of_comment {cs : List Char} {q R : Nat}
    (hqR : q ≤ R)
    (hsp : ∀ j, q ≤ j → j < R → cs.get? j = some ' ' ∨ cs.get? j = some '\t')
    (h1 : cs.get? R = some '/') (h2 : cs.get? (R+1) = some '/') :
    matchFieldAt cs q = none := by
  have hchar : ∀ j, q ≤ j → j ≤ R →
      ∃ c, cs.get? j = some c ∧ (c = ' ' ∨ c = '\t' ∨ c = '/') := by
    intro j hj1 hj2
    by_cases hj : j = R
    · exact ⟨'/', by rw [hj]; exact h1, by simp⟩
    · rcases hsp j hj1 (by omega) with h | h
      · exact ⟨' ', h, by simp⟩
      · exact ⟨'\t', h, by simp⟩
  have hfacts : ∀ c : Char, (c = ' ' ∨ c = '\t' ∨ c = '/') →
      c ≠ 'o' ∧ c ≠ 'r' ∧ c ≠ 'm' ∧ isTypeChar c = false := by
    intro c hc
    rcases hc with rfl | rfl | rfl <;>
      exact ⟨by decide, by decide, by decide, by decide⟩
  have hrun : ∀ j, q ≤ j → j ≤ R → runEnd isJsSpace cs j = R := by
    intro j hj1 hj2
    refine runEnd_reach h1 hj2 ?_
    intro i hi1 hi2
    rcases hsp i (by omega) hi2 with h | h <;> rw [h] <;> decide
  unfold matchFieldAt
  split
  · unfold tryStar
    rw [hrun q (le_refl _) hqR]
    apply tryDescAux_none
    intro j1 hj1a hj1b
    have hj1R : j1 ≤ R := by omega
    obtain ⟨c, hc, hcs⟩ := hchar j1 (by omega) hj1R
    obtain ⟨ho, hr, hm, ht⟩ := hfacts c hcs
    rw [fieldLabel_skip hc ho hr]
    rw [hrun j1 (by omega) hj1R]
    apply tryDescAux_none
    intro j3 hj3a hj3b
    have hj3R : j3 ≤ R := by omega
    obtain ⟨c2, hc2, hcs2⟩ := hchar j3 (by omega) hj3R
    obtain ⟨_, _, hm2, ht2⟩ := hfacts c2 hcs2
    exact fieldType_none hc2 ht2 hm2
  · rfl

/-- Assertion helper: does `pat` occur at the head of `cs`? -/
def startsWithL : List Char → List Char → Bool
  | [], _ => true
  | _ :: _, [] => false
  | c :: p, d :: t => c = d && startsWithL p t

/-- Assertion helper: does `pat` occur anywhere in `cs`?  Used only to
state properties of concrete outputs. -/
def hasInfix (pat : List Char) : List Char → Bool
  | [] => startsWithL pat []
  | c :: t => startsWithL pat (c :: t) || hasInfix pat t

/-! Concrete documents used by the claims. -/

/-- The spec's nested example, written with one declaration per line. -/
def exNested : String :=
  "message Outer \x7b\n message Inner \x7b\n int32 x = 9;\n \x7d\n int32 y = 3;\n\x7d\n"

/-- What the program produces on `exNested`: the outer pass re-matches the
already-renumbered inner field line, so `x` takes outer counter value 1 and
the outer direct field `y` takes outer counter value 2. -/
def exNestedOut : String :=
  "message Outer \x7b\n message Inner \x7b\n int32 x = 1;\n \x7d\n int32 y = 2;\n\x7d\n"

/-- The spec's Example 2 verbatim: a single-line nested document. -/
def exOneLine : String :=
  "message Outer \x7b message Inner \x7b int32 x = 9; \x7d int32 y = 3; \x7d"

/-- What the program produces on `exOneLine`: the inner body starts at its
own offset 0, so `x` is renumbered to 1; the outer body is a single line
whose only line start cannot parse as a field, so `y` keeps tag 3. -/
def exOneLineOut : String :=
  "message Outer \x7b message Inner \x7b int32 x = 1; \x7d int32 y = 3; \x7d"

/-- A document breaking idempotence: 9 direct fields, a nested message
with 8 fields, and a field-shaped top-level line after the outer `}`. -/
def idemDoc : String :=
  "message A \x7b\ni a=1;\ni a=1;\ni a=1;\ni a=1;\ni a=1;\ni a=1;\ni a=1;\ni a=1;\ni a=1;\nmessage B \x7b\ni b=1;\ni b=1;\ni b=1;\ni b=1;\ni b=1;\ni b=1;\ni b=1;\ni b=1;\n\x7d\n\x7d\nb q=9;\n"

/-- First run on `idemDoc`: B's fields take outer values 10..17 (each one
character wider than before), so A's recorded close offset is 8 characters
short of the new text's closing brace. -/
def idemOnce : String :=
  "message A \x7b\ni a=1;\ni a=2;\ni a=3;\ni a=4;\ni a=5;\ni a=6;\ni a=7;\ni a=8;\ni a=9;\nmessage B \x7b\ni b=10;\ni b=11;\ni b=12;\ni b=13;\ni b=14;\ni b=15;\ni b=16;\ni b=17;\n\x7d\n\x7d\nb q=9;\n"

/-- Second run on `idemOnce`: B's pass shrinks the text by 8, A's stale
close offset now reaches past its brace, and the top-level line `b q=9;`
is swept into A's body slice and renumbered to 18. -/
def idemTwice : String :=
  "message A \x7b\ni a=1;\ni a=2;\ni a=3;\ni a=4;\ni a=5;\ni a=6;\ni a=7;\ni a=8;\ni a=9;\nmessage B \x7b\ni b=10;\ni b=11;\ni b=12;\ni b=13;\ni b=14;\ni b=15;\ni b=16;\ni b=17;\n\x7d\n\x7d\nb q=18;\n"

/-- A document whose first `message` occurrence has no matching brace
(the buffer ends at depth 1) while a nested occurrence does. -/
def exUnmatched : String := "message A \x7b message B \x7b\n\x7d\n"

/-- A body with a line-comment line between two field declarations. -/
def commentBody : String := "\nint32 a = 5;\n// field z = 7;\nint32 b = 9;\n"

/-- Output on `commentBody`: the comment line is untouched and does not
consume a counter value. -/
def commentBodyOut : String := "\nint32 a = 1;\n// field z = 7;\nint32 b = 2;\n"

/-- A body with a field-shaped line inside a block comment. -/
def blockBody : String := "\n/*\nint32 z = 7;\n*/\nint32 a = 9;\n"

/-- Output on `blockBody`: the commented-out line is rewritten and takes
counter value 1, shifting the real field to 2. -/
def blockBodyOut : String := "\n/*\nint32 z = 1;\n*/\nint32 a = 2;\n"

/-! Claim theorems. -/

/-- C1, counterexample: on `exNested` the output's Outer span has exactly
one direct field declaration, `y`, and its assigned tag is 2, not 1 — the
output contains `int32 y = 2;` and no `int32 y = 1;` — so the direct-field
tag set is not `{1, ..., k}` under either reading of `k`.  The renumber
pass of an enclosing message re-matches the field lines of its nested
messages and spends counter values on them. -/
theorem claim1_counterexample :
    processProtoTextL exNested.data = (exNestedOut.data, true) ∧
    hasInfix "int32 y = 2;".data exNestedOut.data = true ∧
    hasInfix "int32 y = 1;".data exNestedOut.data = false :=
  ⟨by decide, by decide, by decide⟩

/-- C1, amended: within one `renumberMessageBody` pass the tag numbers
assigned, in source order, are exactly `1, 2, ..., k` where `k` is the
number of field-regex matches in that body text — but the matches include
the field lines of deeper nested messages, so the per-span direct-field
version of sequentiality fails (see the counterexample). -/
theorem claim1_tags_sequential (body : List Char) :
    renumTags body = List.range' 1 (fieldMatches body).length ∧
    (renumTags body).length = (fieldMatches body).length := by
  have h1 := renumAux_tags body (body.length + 2) 0 1
  have h2 := renumAux_tags_length body (body.length + 2) 0 1
  constructor
  · unfold renumTags fieldMatches
    rw [h1, h2]
  · unfold renumTags fieldMatches
    exact h2

/-- C2, counterexample: on the spec's exact single-line Example 2 the
output does not contain `int32 y = 1;` — Outer's direct field keeps tag 3,
because the field pattern only matches at line starts and Outer's body is
a single line. -/
theorem claim2_counterexample :
    processProtoTextL exOneLine.data = (exOneLineOut.data, true) ∧
    hasInfix "int32 y = 1;".data exOneLineOut.data = false :=
  ⟨by decide, by decide⟩

/-- C2, amended: on the single-line Example 2 document, Inner's `x`
becomes 1 (the inner body slice starts at its own offset 0, a line start)
while Outer's `y` keeps tag 3 (no line start precedes it inside the outer
body). -/
theorem claim2_nested_oneline :
    processProtoTextL exOneLine.data = (exOneLineOut.data, true) ∧
    hasInfix "int32 x = 1;".data exOneLineOut.data = true ∧
    hasInfix "int32 y = 3;".data exOneLineOut.data = true :=
  ⟨by decide, by decide, by decide⟩

/-- C3, counterexample: `processDocument` is not idempotent.  On `idemDoc`
the first run widens the nested message's tags (10..17); on the second run
the nested pass shrinks the buffer by 8 characters, the outer span's close
offset — recorded against the pristine buffer — overshoots, and the
top-level line `b q=9;` after the outer brace is swept into the outer body
and rewritten to `b q=18;`. -/
theorem claim3_counterexample :
    processProtoTextL idemDoc.data = (idemOnce.data, true) ∧
    (processProtoTextL idemOnce.data).1 = idemTwice.data ∧
    idemOnce.data ≠ idemTwice.data :=
  ⟨by decide, by decide, by decide⟩

/-- C3, amended: idempotence fails in general (see the counterexample:
length-changing nested rewrites leave the enclosing span's recorded close
offset stale); when no such offset staleness arises a second run is a
no-op, as on the nested example document. -/
theorem claim3_idempotent_example :
    (processProtoTextL (processProtoTextL exNested.data).1).1 =
      (processProtoTextL exNested.data).1 := by decide

/-- C4: while the scanner is in a comment or string mode, every character
— `{` and `}` included — leaves the depth counter unchanged (and the scan
continues); conversely a step that changes the depth, or returns a match,
can only happen with all four mode flags off, i.e. in Normal mode. -/
theorem claim4_comment_string_immunity (st : ScanSt) (ch : Char) (next : Option Char) :
    ((st.slc || st.mlc || st.dq || st.sq) = true →
      ∃ st2, scanStep st ch next = .cont st2 ∧ st2.depth = st.depth) ∧
    (∀ st2, scanStep st ch next = .cont st2 → st2.depth ≠ st.depth →
      st.slc = false ∧ st.mlc = false ∧ st.dq = false ∧ st.sq = false) ∧
    (∀ p, scanStep st ch next = .found p →
      st.slc = false ∧ st.mlc = false ∧ st.dq = false ∧ st.sq = false) := by
  refine ⟨?_, ?_, ?_⟩
  · intro hm
    unfold scanStep
    split
    · next hc => exfalso; simp_all
    · repeat' split
      all_goals exact ⟨_, rfl, rfl⟩
  · intro st2 h hd
    unfold scanStep at h
    repeat' split at h
    all_goals cases h
    all_goals first
      | assumption
      | exact absurd rfl hd
  · intro p h
    obtain ⟨_, h1, h2, h3, h4, _, _⟩ := scanStep_found h
    exact ⟨h1, h2, h3, h4⟩

/-- C4 witness: a concrete line-comment state steps over `{` without
touching the depth. -/
theorem claim4_witness :
    ∃ st2, scanStep ⟨7, 3, true, false, false, false⟩ '{' (some '}') = .cont st2 ∧
      st2.depth = 3 :=
  (claim4_comment_string_immunity ⟨7, 3, true, false, false, false⟩ '{' (some '}')).1 rfl

/-- C5: under the precondition `text[openPos] = '{'`, a successful
`findMatchingBrace` returns a strictly later offset holding `'}'`, reached
from the depth-0 all-modes-off initial state by `cont` steps only (so the
returning step is the first one to see depth reach 0: it fires in Normal
mode with depth exactly 1 before the decrement). -/
theorem claim5_brace_matching (cs : List Char) (p c : Nat)
    (hopen : cs.get? p = some '{') (hres : findMatchingBrace cs p = some c) :
    p < c ∧ cs.get? c = some '}' ∧
    ∃ st, Relation.ReflTransGen (contStep cs) (initSt p) st ∧ st.i = c ∧
      st.slc = false ∧ st.mlc = false ∧ st.dq = false ∧ st.sq = false ∧
      st.depth = 1 := by
  unfold findMatchingBrace at hres
  obtain ⟨st2, hreach, ⟨hlt, hstep⟩, hle⟩ := fmbAux_some hres
  obtain ⟨hp, h1, h2, h3, h4, h5, h6⟩ := scanStep_found hstep
  subst hp
  have hgc : cs.get? st2.i = some '}' := by
    rw [List.get?_eq_get hlt, h6]
  have hstrict : p < st2.i := by
    rcases Relation.ReflTransGen.cases_head hreach with heq | ⟨st1, hstep1, hreach1⟩
    · exfalso
      have hip : st2.i = p := by rw [← heq]; rfl
      rw [hip, hopen] at hgc
      simp at hgc
    · have hlt1 := contStep_i hstep1
      have hle1 := reach_i_le hreach1
      simp only [initSt] at hlt1
      omega
  exact ⟨hstrict, hgc, st2, hreach, rfl, h1, h2, h3, h4, h5⟩

/-- C5 witness: the two-character document `{}` matches position 0 to
position 1. -/
theorem claim5_witness :
    0 < 1 ∧ "\x7b\x7d".data.get? 1 = some '}' ∧
    ∃ st, Relation.ReflTransGen (contStep "\x7b\x7d".data) (initSt 0) st ∧ st.i = 1 ∧
      st.slc = false ∧ st.mlc = false ∧ st.dq = false ∧ st.sq = false ∧
      st.depth = 1 :=
  claim5_brace_matching "\x7b\x7d".data 0 1 (by decide) (by decide)

/-- C6: when the buffer ends before depth returns to 0 the brace matcher
reports NotFound (`none`, the source's `-1`); the span finder records a
span only when the brace matcher succeeds, so such an occurrence yields no
span and is never rewritten, while scanning continues.  Concretely, in
`exUnmatched` the occurrence `message A {` at brace 10 is unmatched and
skipped, yet the later nested occurrence `message B {` is still found. -/
theorem claim6_unmatched_skip :
    (∀ (cs : List Char) (s : Nat × Nat), s ∈ findMessageSpans cs →
      findMatchingBrace cs s.1 = some s.2) ∧
    findMatchingBrace exUnmatched.data 10 = none ∧
    findMessageSpans exUnmatched.data = [(22, 24)] := by
  refine ⟨?_, by decide, by decide⟩
  intro cs s h
  exact spansAux_mem h

/-- C6 witness: the one recorded span of `exUnmatched` indeed carries a
successful brace match. -/
theorem claim6_witness : findMatchingBrace exUnmatched.data 22 = some 24 :=
  claim6_unmatched_skip.1 exUnmatched.data (22, 24) (by decide)

/-- C7: frame property of `renumberMessageBody`.  The body decomposes into
the gaps between matches and, per match, group 1, the digits and group 3;
the output is the same concatenation with only each digits slot replaced
by the stringified counter.  All bytes outside the matched number tokens —
gaps, labels, types, names, whitespace, bracketed options, semicolons —
are copied through verbatim. -/
theorem claim7_frame (body : List Char) :
    concatIn body 0 (fieldMatches body) = body ∧
    renumberMessageBody body = concatOut body 1 0 (fieldMatches body) := by
  constructor
  · have h := concatIn_matchesFrom body (body.length + 2) 0
    unfold fieldMatches
    simpa using h
  · unfold renumberMessageBody fieldMatches
    exact renumAux_fst_eq_concatOut (body.length + 2) 0 1

/-- C8: a field-shaped text on a line whose content is preceded by `//`
(after blank or tab indentation) is not matched: the field regex finds no
foothold at that line start, so the embedded number is not rewritten and
the tag counter is not incremented for it.  Concretely, `commentBody`'s
comment line is untouched and the real fields take tags 1 and 2. -/
theorem claim8_line_comment_untouched :
    (∀ (cs : List Char) (q R : Nat), q ≤ R →
      (∀ j, q ≤ j → j < R → cs.get? j = some ' ' ∨ cs.get? j = some '\t') →
      cs.get? R = some '/' → cs.get? (R+1) = some '/' →
      matchFieldAt cs q = none) ∧
    renumberMessageBody commentBody.data = commentBodyOut.data ∧
    renumTags commentBody.data = [1, 2] := by
  refine ⟨?_, by decide, by decide⟩
  intro cs q R h1 h2 h3 h4
  exact matchFieldAt_none_of_comment h1 h2 h3 h4

/-- C8 witness: the comment line itself offers the field regex no match at
its line start. -/
theorem claim8_witness : matchFieldAt "// field z = 7;".data 0 = none :=
  claim8_line_comment_untouched.1 "// field z = 7;".data 0 0 (le_refl 0)
    (fun j _ hj2 => absurd hj2 (Nat.not_lt_zero j)) (by decide) (by decide)

/-- C9: `renumberMessageBody` is comment-blind: a field-shaped line inside
a `/* ... */` block comment is matched, its tag rewritten to the current
counter value, and the shared counter incremented — shifting subsequent
real fields.  On `blockBody` the commented-out `int32 z = 7;` takes tag 1
and the real field `int32 a = 9;` is shifted to tag 2. -/
theorem claim9_block_comment_rewritten :
    renumberMessageBody blockBody.data = blockBodyOut.data ∧
    renumTags blockBody.data = [1, 2] :=
  ⟨by decide, by decide⟩

/-- C10: totality of the core.  The top-level transform returns a value on
every input, and each fuelled loop's result is already stable at the fuel
the embedding supplies: any fuel dominating the remaining scan distance
yields the same result, which is the termination of the source's loops
(every iteration strictly advances its position). -/
theorem claim10_totality (cs : List Char) :
    (∃ r, processProtoTextL cs = r) ∧
    (∀ p fuel, cs.length - p < fuel →
      fmbAux cs fuel (initSt p) = findMatchingBrace cs p) ∧
    (∀ q fuel, cs.length + 1 - q < fuel →
      spansAux cs fuel q = spansAux cs (cs.length + 2) q) ∧
    (∀ pos counter fuel, cs.length + 1 - pos < fuel →
      renumAux cs fuel pos counter = renumAux cs (cs.length + 2) pos counter) := by
  refine ⟨⟨_, rfl⟩, ?_, ?_, ?_⟩
  · intro p fuel h
    unfold findMatchingBrace
    exact fmbAux_fuel fuel (cs.length + 1) (initSt p) h (by omega)
  · intro q fuel h
    exact spansAux_fuel fuel (cs.length + 2) q h (by omega)
  · intro pos counter fuel h
    exact renumAux_fuel fuel (cs.length + 2) pos counter h (by omega)

/-- C10 witness: stability at concrete fuels on a concrete document. -/
theorem claim10_witness :
    (∃ r, processProtoTextL "\x7b\x7d".data = r) ∧
    fmbAux "\x7b\x7d".data 9 (initSt 0) = findMatchingBrace "\x7b\x7d".data 0 ∧
    spansAux "\x7b\x7d".data 9 0 = spansAux "\x7b\x7d".data ("\x7b\x7d".data.length + 2) 0 ∧
    renumAux "\x7b\x7d".data 9 0 1 = renumAux "\x7b\x7d".data ("\x7b\x7d".data.length + 2) 0 1 :=
  ⟨(claim10_totality "\x7b\x7d".data).1,
   (claim10_totality "\x7b\x7d".data).2.1 0 9 (by decide),
   (claim10_totality "\x7b\x7d".data).2.2.1 0 9 (by decide),
   (claim10_totality "\x7b\x7d".data).2.2.2 0 1 9 (by decide)⟩

end FixProto
